import Mathlib

/-!
Shallow embedding of `reorganize_samples.py`, a script that reorganizes a tree
of audio sample files into a type-based folder hierarchy.  Python strings are
modelled as Lean `String`s (ASCII scope), Python `int` slice arguments as
`Int` with Python's negative-index semantics, `hashlib.sha1` by a full SHA-1
implementation over the UTF-8 bytes, and the filesystem as an explicit record
of directories and files relative to the destination root.
-/

set_option maxRecDepth 8192

namespace SpliceOrg

/-- ASCII lowercase, as Python `str.lower` acts on ASCII characters. -/
def lowC : Char → Char
  | 'A' => 'a' | 'B' => 'b' | 'C' => 'c' | 'D' => 'd' | 'E' => 'e' | 'F' => 'f'
  | 'G' => 'g' | 'H' => 'h' | 'I' => 'i' | 'J' => 'j' | 'K' => 'k' | 'L' => 'l'
  | 'M' => 'm' | 'N' => 'n' | 'O' => 'o' | 'P' => 'p' | 'Q' => 'q' | 'R' => 'r'
  | 'S' => 's' | 'T' => 't' | 'U' => 'u' | 'V' => 'v' | 'W' => 'w' | 'X' => 'x'
  | 'Y' => 'y' | 'Z' => 'z'
  | c => c

/-- ASCII uppercase, as Python `str.upper` acts on ASCII characters. -/
def upC : Char → Char
  | 'a' => 'A' | 'b' => 'B' | 'c' => 'C' | 'd' => 'D' | 'e' => 'E' | 'f' => 'F'
  | 'g' => 'G' | 'h' => 'H' | 'i' => 'I' | 'j' => 'J' | 'k' => 'K' | 'l' => 'L'
  | 'm' => 'M' | 'n' => 'N' | 'o' => 'O' | 'p' => 'P' | 'q' => 'Q' | 'r' => 'R'
  | 's' => 'S' | 't' => 'T' | 'u' => 'U' | 'v' => 'V' | 'w' => 'W' | 'x' => 'X'
  | 'y' => 'Y' | 'z' => 'Z'
  | c => c

/-- Lowercase a string; embedding of `norm` (line 146) and of `.lower()` calls. -/
def lowerS (s : String) : String := ⟨s.data.map lowC⟩

/-- Python slice `s[:n]` with an `int` argument, including negative indices. -/
def pyTake (n : Int) (s : String) : String :=
  if 0 ≤ n then ⟨s.data.take n.toNat⟩ else ⟨s.data.take (s.data.length - (-n).toNat)⟩

/-- Python slice `s[n:]` with an `int` argument, including negative indices
(and Python's `-0 = 0` quirk, which simply falls in the nonnegative case). -/
def pyDropFrom (n : Int) (s : String) : String :=
  if 0 ≤ n then ⟨s.data.drop n.toNat⟩ else ⟨s.data.drop (s.data.length - (-n).toNat)⟩

/-- Whether the needle is an initial segment of the haystack. -/
def leadsWith : List Char → List Char → Bool
  | [], _ => true
  | _ :: _, [] => false
  | a :: as, b :: bs => a == b && leadsWith as bs

/-- Whether `n` occurs contiguously inside the list; Python `needle in hay`. -/
def hayHas (n : List Char) : List Char → Bool
  | [] => n.isEmpty
  | c :: rest => leadsWith n (c :: rest) || hayHas n rest

/-- Python substring test `needle in hay`. -/
def strContains (hay needle : String) : Bool := hayHas needle.data hay.data

/-- Whether the needle is a final segment of the haystack. -/
def endsIn (n l : List Char) : Bool := leadsWith n.reverse l.reverse

/-- Python `str.split(sep)` for a one-character separator, empty pieces kept. -/
def splitOnChar (sep : Char) : List Char → List (List Char)
  | [] => [[]]
  | c :: rest =>
    let r := splitOnChar sep rest
    if c == sep then [] :: r
    else
      match r with
      | t :: ts => (c :: t) :: ts
      | [] => [[c]]

/-- Python `sep.join(pieces)` for a one-character separator. -/
def joinChar (sep : Char) : List (List Char) → List Char
  | [] => []
  | [t] => t
  | t :: ts => t ++ sep :: joinChar sep ts

/-- String versions of the splitter and joiner. -/
def splitS (sep : Char) (s : String) : List String :=
  (splitOnChar sep s.data).map (fun t => (⟨t⟩ : String))

/-- Join strings with a one-character separator. -/
def joinS (sep : Char) (l : List String) : String := ⟨joinChar sep (l.map String.data)⟩

/-- Python `str.startswith`. -/
def startsW (s pre : String) : Bool := leadsWith pre.data s.data

/-! ### SHA-1, as used by `_sha7` (lines 21-22): `hashlib.sha1(s.encode("utf-8")).hexdigest()[:7]` -/

/-- UTF-8 encoding of one character, as byte values. -/
def utf8Char (c : Char) : List Nat :=
  let n := c.toNat
  if n < 128 then [n]
  else if n < 2048 then [192 + n / 64, 128 + n % 64]
  else if n < 65536 then [224 + n / 4096, 128 + (n / 64) % 64, 128 + n % 64]
  else [240 + n / 262144, 128 + (n / 4096) % 64, 128 + (n / 64) % 64, 128 + n % 64]

/-- UTF-8 encoding of a string, `s.encode("utf-8")`. -/
def utf8Bytes (s : String) : List Nat := (s.data.map utf8Char).flatten

/-- Truncation to a 32-bit word. -/
def w32 (n : Nat) : Nat := n % 4294967296

/-- Left rotation of a 32-bit word. -/
def rotl32 (n w : Nat) : Nat := (w32 (w <<< n)) ||| (w >>> (32 - n))

/-- Bitwise complement of a 32-bit word. -/
def notW (w : Nat) : Nat := 4294967295 - w

/-- SHA-1 round function. -/
def sha1F (i b c d : Nat) : Nat :=
  if i < 20 then (b &&& c) ||| ((notW b) &&& d)
  else if i < 40 then (b ^^^ c) ^^^ d
  else if i < 60 then ((b &&& c) ||| (b &&& d)) ||| (c &&& d)
  else (b ^^^ c) ^^^ d

/-- SHA-1 round constants. -/
def sha1K (i : Nat) : Nat :=
  if i < 20 then 1518500249
  else if i < 40 then 1859775393
  else if i < 60 then 2400959708
  else 3395469782

/-- SHA-1 message-schedule step; `win` lists the previous words newest first. -/
def wNext (win : List Nat) : Nat :=
  rotl32 1 ((((win.getD 2 0) ^^^ (win.getD 7 0)) ^^^ (win.getD 13 0)) ^^^ (win.getD 15 0))

/-- Extend the message schedule by `k` further words. -/
def wExtend (win : List Nat) : Nat → List Nat
  | 0 => []
  | k+1 => let x := wNext win; x :: wExtend ((x :: win).take 16) k

/-- SHA-1 compression rounds over the schedule words. -/
def sha1Rounds : List Nat → Nat → Nat × Nat × Nat × Nat × Nat → Nat × Nat × Nat × Nat × Nat
  | [], _, st => st
  | w :: ws, i, (a, b, c, d, e) =>
    let t := w32 (w32 (rotl32 5 a + sha1F i b c d) + w32 (e + w32 (sha1K i + w)))
    sha1Rounds ws (i+1) (t, a, rotl32 30 b, c, d)

/-- Big-endian grouping of bytes into 32-bit words. -/
def toWords : List Nat → List Nat
  | b0 :: b1 :: b2 :: b3 :: rest => (((b0 * 256 + b1) * 256 + b2) * 256 + b3) :: toWords rest
  | _ => []

/-- Split a byte list into 64-byte chunks; the fuel bounds the recursion. -/
def chunksGo : Nat → List Nat → List (List Nat)
  | 0, _ => []
  | _+1, [] => []
  | fuel+1, l => l.take 64 :: chunksGo fuel (l.drop 64)

/-- SHA-1 message padding. -/
def sha1Pad (b : List Nat) : List Nat :=
  let L := b.length
  let z := (120 - ((L + 1) % 64)) % 64
  let m := 8 * L
  b ++ [128] ++ List.replicate z 0 ++
    [(m >>> 56) % 256, (m >>> 48) % 256, (m >>> 40) % 256, (m >>> 32) % 256,
     (m >>> 24) % 256, (m >>> 16) % 256, (m >>> 8) % 256, m % 256]

/-- Process one 64-byte chunk. -/
def sha1Chunk (h : Nat × Nat × Nat × Nat × Nat) (chunk : List Nat) :
    Nat × Nat × Nat × Nat × Nat :=
  let w16 := toWords chunk
  let ws := w16 ++ wExtend w16.reverse 64
  match h, sha1Rounds ws 0 h with
  | (h0, h1, h2, h3, h4), (a, b, c, d, e) =>
    (w32 (h0 + a), w32 (h1 + b), w32 (h2 + c), w32 (h3 + d), w32 (h4 + e))

/-- Hex character of a value below 16. -/
def hexDigitC : Nat → Char
  | 0 => '0' | 1 => '1' | 2 => '2' | 3 => '3' | 4 => '4'
  | 5 => '5' | 6 => '6' | 7 => '7' | 8 => '8' | 9 => '9'
  | 10 => 'a' | 11 => 'b' | 12 => 'c' | 13 => 'd' | 14 => 'e' | 15 => 'f'
  | _ => '0'

/-- Eight-character hex rendering of a 32-bit word. -/
def hex32 (n : Nat) : List Char :=
  [hexDigitC ((n >>> 28) % 16), hexDigitC ((n >>> 24) % 16),
   hexDigitC ((n >>> 20) % 16), hexDigitC ((n >>> 16) % 16),
   hexDigitC ((n >>> 12) % 16), hexDigitC ((n >>> 8) % 16),
   hexDigitC ((n >>> 4) % 16), hexDigitC (n % 16)]

/-- Forty-character SHA-1 hex digest of a string, `hashlib.sha1(...).hexdigest()`. -/
def sha1Hex (s : String) : List Char :=
  let p := sha1Pad (utf8Bytes s)
  match (chunksGo p.length p).foldl sha1Chunk
      (1732584193, 4023233417, 2562383102, 271733878, 3285377520) with
  | (h0, h1, h2, h3, h4) => hex32 h0 ++ hex32 h1 ++ hex32 h2 ++ hex32 h3 ++ hex32 h4

/-- Embedding of `_sha7` (lines 21-22). -/
def sha7 (s : String) : String := ⟨(sha1Hex s).take 7⟩

/-! ### Name normalizer (lines 11-37): `_collapse`, `_drop_filler`, `_mid_vowel_strip` -/

/-- Python whitespace characters matched by the regex class `\s` (ASCII scope). -/
def isSpaceC (c : Char) : Bool :=
  c == ' ' || c == '\t' || c == '\n' || c == '\r' || c == '\x0b' || c == '\x0c'

/-- Characters of the separator class `[\s\-\._]` in `SEPARATORS_RE`. -/
def isSepC (c : Char) : Bool := isSpaceC c || c == '-' || c == '.' || c == '_'

/-- Replace each maximal run of characters satisfying `p` by a single `rep`;
this is `re.sub` of the one-or-more class against a single character. -/
def collapseRuns (p : Char → Bool) (rep : Char) : Bool → List Char → List Char
  | _, [] => []
  | inRun, c :: rest =>
    if p c then
      if inRun then collapseRuns p rep true rest else rep :: collapseRuns p rep true rest
    else c :: collapseRuns p rep false rest

/-- Python `str.strip()` (whitespace from both ends). -/
def pyStripWs (s : String) : String :=
  ⟨((s.data.dropWhile isSpaceC).reverse.dropWhile isSpaceC).reverse⟩

/-- Python `str.strip("_")`. -/
def stripUnderscores (s : String) : String :=
  ⟨((s.data.dropWhile (· == '_')).reverse.dropWhile (· == '_')).reverse⟩

/-- Embedding of `MULTI_UNDERSCORE_RE.sub("_", s)`. -/
def collapseUnd (s : String) : String := ⟨collapseRuns (· == '_') '_' false s.data⟩

/-- Embedding of `_collapse` (lines 24-26). -/
def collapse (name : String) : String :=
  let n : String := ⟨collapseRuns isSepC '_' false (pyStripWs name).data⟩
  stripUnderscores (collapseUnd n)

/-- The `FILLER_WORDS` set (lines 12-15). -/
def fillerWords : List String :=
  ["the", "and", "with", "from", "for", "of", "loop", "sample", "one-shot", "oneshot",
   "onesht", "shot", "stereo", "mono", "wet", "dry", "mix", "ver", "take", "take1",
   "take2", "v1", "v2", "pack", "splice"]

/-- Embedding of `_drop_filler` (lines 28-30). -/
def dropFiller (name : String) : String :=
  let toks := (splitS '_' name).filter (fun t => !(fillerWords.contains (lowerS t)))
  let joined := joinS '_' toks
  if joined == "" then name else joined

/-- Vowel class of `VOWELS_RE`, case-insensitive. -/
def isVowelC (c : Char) : Bool :=
  let l := lowC c
  l == 'a' || l == 'e' || l == 'i' || l == 'o' || l == 'u' || l == 'y'

/-- Drop vowels that are neither first nor last character of the token; the
look-around in `VOWELS_RE` consults the original string, so this is exactly
removal at interior positions. -/
def stripMidVowels (t : List Char) : List Char :=
  match t with
  | [] => []
  | c :: rest => c :: stripMidGo rest
where
  stripMidGo : List Char → List Char
    | [] => []
    | [x] => [x]
    | x :: y :: rest => if isVowelC x then stripMidGo (y :: rest) else x :: stripMidGo (y :: rest)

/-- Embedding of `_mid_vowel_strip` (lines 32-37). -/
def midVowelStrip (name : String) : String :=
  let out := (splitS '_' name).map (fun t => (⟨stripMidVowels t.data⟩ : String))
  stripUnderscores (collapseUnd (joinS '_' out))

/-- Character class of `NON_ALNUM_RE` complement: letters, digits, `+`, `#`. -/
def isAlnumPlusC (c : Char) : Bool := c.isAlpha || c.isDigit || c == '+' || c == '#'

/-- Embedding of `NON_ALNUM_RE.sub("_", s)`: each other character becomes `_`. -/
def nonAlnumSub (s : String) : String :=
  ⟨s.data.map (fun c => if isAlnumPlusC c then c else '_')⟩

/-- Embedding of `_shorten_stem` (lines 57-69). -/
def shortenStem (stem : String) (packHint : Option String) : String :=
  let s := collapse stem
  let s :=
    match packHint with
    | some hint =>
      let ph := collapse hint
      let low := lowerS s
      if startsW low (lowerS ph ++ "_") then pyDropFrom ((ph.length : Int) + 1) s
      else if startsW low (lowerS ph) then pyDropFrom (ph.length : Int) s
      else s
    | none => s
  let s := midVowelStrip (dropFiller s)
  let s := nonAlnumSub s
  let s := stripUnderscores (collapseUnd s)
  if s == "" then "x" else s

/-! ### Uniqueness and the 128-character limit (lines 11, 39-51, 71-89) -/

/-- The `MAX_REL_PATH_CHARS` constant (line 11). -/
def maxRelPathChars : Nat := 128

/-- Python `max` on two integers. -/
def pymax (a b : Int) : Int := if a < b then b else a

/-- Embedding of `_unique` (lines 39-51).  `maxLen` is an `Int` because
`enforce_m8_limit` can pass a non-positive allowance; slicing follows Python. -/
def unique (suggested : String) (existing : List String) (maxLen : Int) (orig : String) :
    String :=
  let cand := pyTake maxLen suggested
  if existing.contains cand then
    let sfx := "~" ++ sha7 orig
    let room : Int := maxLen - (sfx.length : Int)
    if room < 1 then pyDropFrom (-maxLen) sfx
    else
      let base := pyTake room cand
      let final := base ++ sfx
      if existing.contains final then pyTake maxLen (pyTake (pymax 1 (room - 1)) orig ++ sfx)
      else final
  else cand

/-- Index of the last `.` in a name, if any; helper for `pathlib` stem/suffix. -/
def lastDotIdx (l : List Char) : Option Nat :=
  ((List.range l.length).filter (fun i => l.get? i == some '.')).getLast?

/-- Split a file name at its final dot, unless that dot is the first or last
character; the `pathlib` stem/suffix rule. -/
def pathSplit (l : List Char) : List Char × List Char :=
  match lastDotIdx l with
  | some i => if 0 < i ∧ i < l.length - 1 then (l.take i, l.drop i) else (l, [])
  | none => (l, [])

/-- Embedding of `pathlib.PurePath.suffix` for a file name: the part from the
final dot, unless that dot is the first or last character. -/
def pathSuffix (name : String) : String := ⟨(pathSplit name.data).2⟩

/-- Embedding of `pathlib.PurePath.stem` for a file name. -/
def pathStem (name : String) : String := ⟨(pathSplit name.data).1⟩

/-- Character length of `str(parent.relative_to(dst_root))` for a destination
parent given by its segments; an empty segment list is `Path(".")`, length 1. -/
def parentRelLen (segs : List String) : Nat :=
  if segs.isEmpty then 1
  else (segs.map String.length).foldl (· + ·) 0 + (segs.length - 1)

/-- Character length of `str(out_path.relative_to(dst_root))` for a candidate
with parent segments `segs` and file name `name` (an empty name means the
path collapses to its parent, as `Path(p) / ""` does). -/
def relLen (segs : List String) (name : String) : Nat :=
  if name == "" then parentRelLen segs
  else if segs.isEmpty then name.length
  else parentRelLen segs + 1 + name.length

/-- Maximum file-name length allowed by lines 79 and 183-185:
`MAX_REL_PATH_CHARS - parent_rel_len - 1`. -/
def maxNameLen (segs : List String) : Int :=
  (maxRelPathChars : Int) - (parentRelLen segs : Int) - 1

/-- Embedding of `enforce_m8_limit` (lines 71-89), returning the possibly
adjusted file name; `siblings` is the listing of existing file names in the
parent directory. -/
def enforceName (segs : List String) (name : String) (siblings : List String)
    (packHint : Option String) : String :=
  if relLen segs name ≤ maxRelPathChars then name
  else
    let mnl := maxNameLen segs
    let stem := shortenStem (pathStem name) packHint
    let ext := pathSuffix name
    let maxStemLen : Int := pymax 1 (mnl - (ext.length : Int))
    let stem := if (stem.length : Int) > maxStemLen then pyTake maxStemLen stem else stem
    unique (stem ++ ext) (siblings.filter (fun s => !(s == name))) mnl name

/-- Embedding of the `return parent / new_name` shape of `enforce_m8_limit`:
the parent segments pass through unchanged, only the name is recomputed. -/
def enforceM8 (segs : List String) (name : String) (siblings : List String)
    (packHint : Option String) : List String × String :=
  (segs, enforceName segs name siblings packHint)

/-! ### Categorization (lines 95-168): `CATEGORY_RULES` and `categorize` -/

/-- Embedding of `CATEGORY_RULES` (lines 95-140), in source order. -/
def CATEGORY_RULES : List (List String × String) :=
  [(["kick", "bd", "subkick"], "Drums/Kicks"),
   (["snare", "rimshot", "rim"], "Drums/Snares"),
   (["clap"], "Drums/Claps"),
   (["hi hat", "hi-hat", "hihat", "hat"], "Drums/Hats"),
   (["tom"], "Drums/Toms"),
   (["ride", "crash", "splash", "china", "cymbal"], "Drums/Cymbals"),
   (["shaker", "tamb", "tambo", "tambourine", "bongo", "conga", "timbale", "cowbell",
     "clave", "guiro", "agogo", "block"], "Drums/Percussion"),
   (["break", "breakbeat", "amen", "funky drummer"], "Loops/Drums/Breaks"),
   (["top loop", "tops"], "Loops/Drums/Tops"),
   (["drum loop", "beat loop", "beat", "loop drums"], "Loops/Drums"),
   (["808"], "Bass/808"),
   (["bass", "sub"], "Bass"),
   (["pad"], "Synth/Pads"),
   (["lead"], "Synth/Leads"),
   (["pluck"], "Synth/Plucks"),
   (["arpeggio", "arp"], "Synth/Arps"),
   (["synth"], "Synth"),
   (["piano", "keys", "rhodes", "wurlitzer", "organ", "epiano"], "Keys"),
   (["guitar", "gtr"], "Guitar"),
   (["violin", "viola", "cello", "strings", "pizzicato"], "Strings"),
   (["sax", "saxophone", "trumpet", "trombone", "horn", "brass"], "Brass"),
   (["flute", "clarinet", "oboe", "bassoon", "woodwind"], "Winds"),
   (["vocal", "vox", "choir", "chant", "adlib", "ad-lib", "adlib"], "Vocals"),
   (["fx", "sfx", "sweep", "riser", "rise", "downlifter", "downer", "impact", "boom",
     "whoosh", "glitch", "stutter"], "FX"),
   (["noise", "texture", "atmo", "ambience", "ambient", "drone", "foley", "field"],
    "Textures Foley"),
   (["loop"], "Loops/Misc"),
   (["one shot", "oneshot", "shot"], "One Shots/Misc")]

/-- First matching rule target, in list order; the inner keyword loop of
`categorize` only tests membership, so `List.any` is an exact embedding. -/
def findRule (rules : List (List String × String)) (hay : String) : Option String :=
  rules.findSome? (fun r => if r.1.any (fun kw => strContains hay kw) then some r.2 else none)

/-- The rule-matching and fallback part of `categorize` (lines 159-168),
applied to the already lowercased haystack. -/
def catOfHay (hayN : String) : String :=
  match findRule CATEGORY_RULES hayN with
  | some target => target
  | none => if strContains hayN "loop" then "Loops/Misc" else "Unsorted"

/-- Embedding of `categorize` (lines 149-168): the haystack joins the file
name with every non-root ancestor directory name (nearest first). -/
def categorize (name : String) (parentNames : List String) : String :=
  let hay := joinS ' ' (name :: parentNames.filter (fun p => !(p == "")))
  catOfHay (lowerS hay)

/-! ### Metadata extraction (lines 143-144, 247-267): `BPM_PAT` and `KEY_PAT`

Both patterns are hand-compiled from their regex source with Python `re`
semantics: left-to-right scan for the first start position admitting a match,
ordered alternation with backtracking, and `\b` word boundaries. -/

/-- Word characters for `\b` (ASCII scope of `\w`). -/
def wordC (c : Char) : Bool := c.isAlphanum || c == '_'

/-- Whether position `i` holds a word character (out of range counts as not). -/
def wordAt (cs : List Char) (i : Nat) : Bool :=
  match cs.get? i with
  | some c => wordC c
  | none => false

/-- The `\b` word-boundary test between positions `i-1` and `i`. -/
def bnd (cs : List Char) (i : Nat) : Bool :=
  (if i == 0 then false else wordAt cs (i - 1)) != wordAt cs i

/-- Whether position `i` holds a digit. -/
def digitAt (cs : List Char) (i : Nat) : Bool :=
  match cs.get? i with
  | some c => c.isDigit
  | none => false

/-- Whether position `i` holds a `\s` character. -/
def spaceAt (cs : List Char) (i : Nat) : Bool :=
  match cs.get? i with
  | some c => isSpaceC c
  | none => false

/-- Lowercased character at a position. -/
def lcAt (cs : List Char) (i : Nat) : Option Char := (cs.get? i).map lowC

/-- Case-insensitive literal match of a lowercase token at position `i`. -/
def litCIAt (cs : List Char) (i : Nat) : List Char → Bool
  | [] => true
  | c :: rest => lcAt cs i == some c && litCIAt cs (i + 1) rest

/-- The `n` characters of `cs` starting at `i` (fewer if the list ends). -/
def sliceN (cs : List Char) (i : Nat) : Nat → List Char
  | 0 => []
  | n+1 =>
    match cs.get? i with
    | some c => c :: sliceN cs (i + 1) n
    | none => []

/-- The literal `bpm` (case-insensitive) followed by `\b`. -/
def bpmLitAt (cs : List Char) (i : Nat) : Bool :=
  litCIAt cs i ['b', 'p', 'm'] && bnd cs (i + 3)

/-- The `\s?bpm\b` tail of `BPM_PAT`, greedy alternative first. -/
def bpmTailAt (cs : List Char) (i : Nat) : Bool :=
  (spaceAt cs i && bpmLitAt cs (i + 1)) || bpmLitAt cs i

/-- One attempt of `BPM_PAT` at start position `i`: `\b(\d{2,3})\s?bpm\b`,
trying three digits greedily before two. -/
def tryBpmAt (cs : List Char) (i : Nat) : Option (List Char) :=
  if bnd cs i then
    if digitAt cs i && digitAt cs (i + 1) && digitAt cs (i + 2) && bpmTailAt cs (i + 3) then
      some (sliceN cs i 3)
    else if digitAt cs i && digitAt cs (i + 1) && bpmTailAt cs (i + 2) then
      some (sliceN cs i 2)
    else none
  else none

/-- Scan start positions left to right, as `re.search` does. -/
def scanFirst {α : Type} (f : Nat → Option α) : Nat → Nat → Option α
  | 0, _ => none
  | fuel+1, i =>
    match f i with
    | some r => some r
    | none => scanFirst f fuel (i + 1)

/-- Embedding of `BPM_PAT.search(name)` returning `group(1)` (lines 143, 249-251). -/
def bpmExtract (s : String) : Option String :=
  (scanFirst (fun i => (tryBpmAt s.data i).map (fun t => (i, t))) (s.data.length + 1) 0).map
    (fun p => (⟨p.2⟩ : String))

/-- Declarative reading of one `BPM_PAT` occurrence at position `i` with
captured digits `t`, written from the specification sentence: a 2-3 digit
number (delimited by the pattern's word boundaries), immediately followed by
optional whitespace and the literal `bpm` (case-insensitive).  No constraint
is placed on the numeric value. -/
def specBpmAt (cs : List Char) (i : Nat) (t : List Char) : Bool :=
  bnd cs i && (t.length == 2 || t.length == 3) && t.all Char.isDigit &&
    sliceN cs i t.length == t && bpmTailAt cs (i + t.length)

/-- Letter class `[A-G]` of `KEY_PAT`, case-insensitive. -/
def letterC (c : Char) : Bool := ('A' ≤ c && c ≤ 'G') || ('a' ≤ c && c ≤ 'g')

/-- Alternatives for the optional accidental `(?:#|b)?` at position `i`, in
backtracking order; each entry carries the consumed text and next position. -/
def accCands (cs : List Char) (i : Nat) : List (List Char × Nat) :=
  (match cs.get? i with
   | some c =>
     (if c == '#' then [([c], i + 1)] else []) ++
     (if c == 'b' || c == 'B' then [([c], i + 1)] else [])
   | none => []) ++ [([], i)]

/-- Alternatives for the optional separator `(?:\s|-|_)?`, next positions in
backtracking order. -/
def sepCands (cs : List Char) (i : Nat) : List Nat :=
  (match cs.get? i with
   | some c => if isSpaceC c || c == '-' || c == '_' then [i + 1] else []
   | none => []) ++ [i]

/-- Quality tokens of `KEY_PAT` in alternation order. -/
def qualToks : List (List Char) :=
  [['m', 'a', 'j'], ['m', 'i', 'n'], ['m'], ['m', 'i', 'n', 'o', 'r'],
   ['m', 'a', 'j', 'o', 'r']]

/-- Alternatives for the optional quality group, in backtracking order; the
captured text is the original-case slice. -/
def qualCands (cs : List Char) (i : Nat) : List (Option (List Char) × Nat) :=
  (qualToks.filterMap (fun tok =>
    if litCIAt cs i tok then some (some (sliceN cs i tok.length), i + tok.length)
    else none)) ++ [(none, i)]

/-- One attempt of `KEY_PAT` at start position `i`, with full backtracking
over the three optional groups and the final `\b`; returns `(group1, group2)`. -/
def tryKeyAt (cs : List Char) (i : Nat) : Option (List Char × Option (List Char)) :=
  match cs.get? i with
  | none => none
  | some c =>
    if bnd cs i && letterC c then
      (accCands cs (i + 1)).findSome? (fun ac =>
        (sepCands cs ac.2).findSome? (fun j2 =>
          (qualCands cs j2).findSome? (fun qc =>
            if bnd cs qc.2 then some (c :: ac.1, qc.1) else none)))
    else none

/-- Embedding of `KEY_PAT.search(name)` returning the two groups (line 253). -/
def keySearch (s : String) : Option (List Char × Option (List Char)) :=
  scanFirst (fun i => tryKeyAt s.data i) (s.data.length + 1) 0

/-- The quality test `qual in {"m", "min", "minor"}` after lowercasing
(lines 263-264), on the optional captured group. -/
def minorQ (qual : Option (List Char)) : Bool :=
  let q := (qual.getD []).map lowC
  q == ['m'] || q == ['m', 'i', 'n'] || q == ['m', 'i', 'n', 'o', 'r']

/-- Embedding of the key rendering (lines 255-267) applied to the match
groups; `group(1)` is never empty since it starts with the letter class. -/
def renderKey (raw : List Char) (qual : Option (List Char)) : List Char :=
  match raw with
  | [] => []
  | l :: accidental =>
    let letter := upC l
    let base := if accidental == ['#'] || accidental == ['b'] then letter :: accidental
                else [letter]
    if minorQ qual then base ++ ['m'] else base

/-- Key tag computed by `main` for a file name: search, then render. -/
def keyExtract (s : String) : Option String :=
  (keySearch s).map (fun p => (⟨renderKey p.1 p.2⟩ : String))

/-- The bracketed tag string built in `main` (lines 269-274). -/
def tagStr (name : String) : String :=
  let tags :=
    (match bpmExtract name with
     | some b => [b ++ "bpm"]
     | none => []) ++
    (match keyExtract name with
     | some k => [k]
     | none => [])
  if tags.isEmpty then "" else " [" ++ joinS ' ' tags ++ "]"

/-! ### Filesystem model and `safe_write` (lines 170-207) -/

deriving instance DecidableEq for Except

/-- Destination-root-relative filesystem state: existing directories (as
segment lists) and files (directory segments paired with the file name). -/
structure FS where
  dirs : List (List String)
  files : List (List String × String)
  deriving Repr, DecidableEq

/-- Non-empty ancestor chains of a directory path. -/
def ancestors (segs : List String) : List (List String) :=
  (List.range segs.length).map (fun k => segs.take (k + 1))

/-- Embedding of `dest.parent.mkdir(parents=True, exist_ok=True)` (line 175). -/
def mkdirs (fs : FS) (segs : List String) : FS :=
  { fs with dirs := fs.dirs ++ (ancestors segs).filter (fun d => !(fs.dirs.contains d)) }

/-- Names of files in a directory, `{p.name for p in parent.iterdir() if p.is_file()}`. -/
def siblingsOf (fs : FS) (segs : List String) : List String :=
  (fs.files.filter (fun p => p.1 == segs)).map (fun p => p.2)

/-- Record a file placement (move, copy and symlink all create `final`;
an existing file at that path is overwritten). -/
def placeFile (fs : FS) (segs : List String) (name : String) : FS :=
  { fs with files := (segs, name) ::
      fs.files.filter (fun p => !(p.1 == segs && p.2 == name)) }

/-- The final-name computation of `safe_write` (lines 178-190): optional
length enforcement, then the sibling-uniqueness pass.  Note the `orig`
argument of the second `_unique` call is `dest.name` after enforcement. -/
def safeWriteName (fs : FS) (segs : List String) (name : String)
    (packHint : Option String) : String :=
  let sib := siblingsOf fs segs
  let name1 := enforceName segs name sib packHint
  unique (pathStem name1 ++ pathSuffix name1) sib (maxNameLen segs) name1

/-- Embedding of `safe_write` (lines 170-207) with `enforce_limit=True`: the
directory is created first, the final name computed, and then the mode is
dispatched; an unknown mode raises after the directory side effect but
before any file placement.  The source-tree half of `move` and the
byte-level difference between copy, move and link are outside this model. -/
def safeWrite (fs : FS) (segs : List String) (name : String) (mode : String)
    (packHint : Option String) : FS × Except String String :=
  let fs1 := mkdirs fs segs
  let fin := safeWriteName fs1 segs name packHint
  if mode == "move" || mode == "copy" || mode == "symlink" then
    (placeFile fs1 segs fin, Except.ok fin)
  else (fs1, Except.error "Unknown mode")

/-! ### The per-file pipeline of `main` (lines 235-293) -/

/-- View of one input file: its name, the names of all ancestor directories
of its absolute path (nearest first), and the top-level source subfolder
used as pack hint (`None` when the file sits directly in the source root). -/
structure SrcFile where
  name : String
  parentNames : List String
  packTop : Option String
  deriving Repr, DecidableEq

/-- Category segments for a file, `dst_root / cat` splitting on `/`. -/
def catSegs (f : SrcFile) : List String := splitS '/' (categorize f.name f.parentNames)

/-- The candidate file name `f"{name}{tag_str}{suffix}"` (line 283). -/
def candName (f : SrcFile) : String := pathStem f.name ++ tagStr f.name ++ pathSuffix f.name

/-- The destination path reported by a dry run (lines 286-288): the
pre-enforcement candidate `out_path`, relative to the destination root. -/
def dryPath (f : SrcFile) : List String × String := (catSegs f, candName f)

/-- Dry run over a file list: report paths, mutate nothing. -/
def dryRun (files : List SrcFile) : List (List String × String) := files.map dryPath

/-- Live run over a file list in `symlink` mode: each file goes through
`safe_write`, threading the destination filesystem state. -/
def liveRun (fs : FS) : List SrcFile → FS × List (List String × String)
  | [] => (fs, [])
  | f :: rest =>
    match safeWrite fs (catSegs f) (candName f) "symlink" f.packTop with
    | (fs1, Except.ok fin) =>
      let rr := liveRun fs1 rest
      (rr.1, (catSegs f, fin) :: rr.2)
    | (fs1, Except.error _) => liveRun fs1 rest

/-- A run of `safe_write` calls in `copy` mode over explicit destination
candidates, collecting the final placed names in order. -/
def runCopy (fs : FS) : List (List String × String) → FS × List String
  | [] => (fs, [])
  | (segs, name) :: rest =>
    match safeWrite fs segs name "copy" none with
    | (fs1, Except.ok fin) =>
      let rr := runCopy fs1 rest
      (rr.1, fin :: rr.2)
    | (fs1, Except.error _) => runCopy fs1 rest

/-! ### General lemmas about the embedded operations -/

theorem data_append (a b : String) : (a ++ b).data = a.data ++ b.data := rfl

theorem length_append_str (a b : String) : (a ++ b).length = a.length + b.length := by
  show (a.data ++ b.data).length = a.data.length + b.data.length
  exact List.length_append a.data b.data

theorem hex32_length (n : Nat) : (hex32 n).length = 8 := rfl

theorem sha1Hex_length (s : String) : (sha1Hex s).length = 40 := by
  unfold sha1Hex
  generalize (chunksGo (sha1Pad (utf8Bytes s)).length (sha1Pad (utf8Bytes s))).foldl sha1Chunk
      (1732584193, 4023233417, 2562383102, 271733878, 3285377520) = t
  obtain ⟨a, b, c, d, e⟩ := t
  simp [hex32_length, List.length_append]

theorem sha7_length (s : String) : (sha7 s).length = 7 := by
  show ((sha1Hex s).take 7).length = 7
  simp [List.length_take, sha1Hex_length]

theorem pathSplit_id (l : List Char) : (pathSplit l).1 ++ (pathSplit l).2 = l := by
  unfold pathSplit
  cases lastDotIdx l with
  | none => exact List.append_nil l
  | some i =>
    by_cases hi : 0 < i ∧ i < l.length - 1
    · simp only [if_pos hi]
      exact List.take_append_drop i l
    · simp only [if_neg hi]
      exact List.append_nil l

theorem stem_suffix_id (n : String) : pathStem n ++ pathSuffix n = n := by
  obtain ⟨l⟩ := n
  show (⟨(pathSplit l).1 ++ (pathSplit l).2⟩ : String) = ⟨l⟩
  exact congrArg String.mk (pathSplit_id l)

theorem pyTake_nonneg (n : Int) (s : String) (h : 0 ≤ n) :
    pyTake n s = ⟨s.data.take n.toNat⟩ := by
  unfold pyTake
  simp [h]

theorem pyTake_all (n : Int) (s : String) (h : 0 ≤ n) (hl : s.length ≤ n.toNat) :
    pyTake n s = s := by
  rw [pyTake_nonneg n s h]
  obtain ⟨l⟩ := s
  exact congrArg String.mk (List.take_of_length_le hl)

theorem pyTake_length_le (n : Int) (s : String) (h : 0 ≤ n) :
    (pyTake n s).length ≤ n.toNat := by
  rw [pyTake_nonneg n s h]
  show (s.data.take n.toNat).length ≤ n.toNat
  simp [List.length_take]

/-- Shape of `_unique` on a collision with at least one character of room: the
result is some stem with the suffix `"~" + _sha7(orig)` appended, where `orig`
is exactly the fourth argument of `_unique`. -/
theorem unique_collision_shape (suggested : String) (existing : List String) (maxLen : Int)
    (orig : String) (hroom : 9 ≤ maxLen)
    (hc : existing.contains (pyTake maxLen suggested) = true) :
    ∃ p, unique suggested existing maxLen orig = p ++ ("~" ++ sha7 orig) := by
  have hsfx : (("~" ++ sha7 orig).length : Int) = 8 := by
    rw [length_append_str, sha7_length]
    decide
  have hu : unique suggested existing maxLen orig =
      (if existing.contains (pyTake maxLen suggested) = true then
        if maxLen - (("~" ++ sha7 orig).length : Int) < 1 then
          pyDropFrom (-maxLen) ("~" ++ sha7 orig)
        else
          if existing.contains
              (pyTake (maxLen - (("~" ++ sha7 orig).length : Int)) (pyTake maxLen suggested) ++
                ("~" ++ sha7 orig)) = true then
            pyTake maxLen
              (pyTake (pymax 1 (maxLen - (("~" ++ sha7 orig).length : Int) - 1)) orig ++
                ("~" ++ sha7 orig))
          else
            pyTake (maxLen - (("~" ++ sha7 orig).length : Int)) (pyTake maxLen suggested) ++
              ("~" ++ sha7 orig)
      else pyTake maxLen suggested) := rfl
  rw [hu, if_pos hc, hsfx]
  have hnotlt : ¬(maxLen - (8 : Int) < 1) := by omega
  rw [if_neg hnotlt]
  by_cases hfin : existing.contains
      (pyTake (maxLen - 8) (pyTake maxLen suggested) ++ ("~" ++ sha7 orig)) = true
  · rw [if_pos hfin]
    refine ⟨pyTake (pymax 1 (maxLen - 8 - 1)) orig, ?_⟩
    apply pyTake_all
    · omega
    · rw [length_append_str]
      have hsfx8 : ("~" ++ sha7 orig).length = 8 := by omega
      rw [hsfx8]
      have h1 : 0 ≤ pymax 1 (maxLen - 8 - 1) := by unfold pymax; split <;> omega
      have h2 := pyTake_length_le (pymax 1 (maxLen - 8 - 1)) orig h1
      have h3 : (pymax 1 (maxLen - 8 - 1)).toNat + 8 ≤ maxLen.toNat := by
        unfold pymax
        split <;> omega
      omega
  · rw [if_neg hfin]
    exact ⟨pyTake (maxLen - 8) (pyTake maxLen suggested), rfl⟩

theorem findRule_eq_none (rules : List (List String × String)) (h : String)
    (hall : ∀ r ∈ rules, r.1.any (fun kw => strContains h kw) = false) :
    findRule rules h = none := by
  induction rules with
  | nil => rfl
  | cons r rs ih =>
    unfold findRule at ih ⊢
    rw [List.findSome?_cons, hall r (by simp)]
    simpa using ih (fun r' hr' => hall r' (by simp [hr']))

theorem findRule_append (rs1 rs2 : List (List String × String)) (h : String) :
    findRule (rs1 ++ rs2) h =
      (match findRule rs1 h with
       | some t => some t
       | none => findRule rs2 h) := by
  induction rs1 with
  | nil => simp [findRule]
  | cons r rs ih =>
    unfold findRule at ih ⊢
    rw [List.cons_append, List.findSome?_cons, List.findSome?_cons]
    by_cases hr : r.1.any (fun kw => strContains h kw) = true
    · simp [hr]
    · simp only [Bool.not_eq_true] at hr
      simp only [hr, if_false]
      exact ih

theorem findRule_mem (rules : List (List String × String)) (h : String) (t : String)
    (hf : findRule rules h = some t) : ∃ r ∈ rules, t = r.2 := by
  induction rules with
  | nil => simp [findRule] at hf
  | cons r rs ih =>
    unfold findRule at hf ih
    rw [List.findSome?_cons] at hf
    by_cases hr : r.1.any (fun kw => strContains h kw) = true
    · simp only [hr, if_true, Option.some.injEq] at hf
      exact ⟨r, by simp, hf.symm⟩
    · simp only [Bool.not_eq_true] at hr
      simp only [hr, if_false] at hf
      obtain ⟨r', hr', ht⟩ := ih hf
      exact ⟨r', by simp [hr'], ht⟩

/-- The breaks rule (line 106). -/
def breaksRule : List String × String :=
  (["break", "breakbeat", "amen", "funky drummer"], "Loops/Drums/Breaks")

/-- Keywords of all rules listed before the breaks rule (the drum one-shot
rules, lines 97-103). -/
def earlierKws : List String :=
  ["kick", "bd", "subkick", "snare", "rimshot", "rim", "clap", "hi hat", "hi-hat",
   "hihat", "hat", "tom", "ride", "crash", "splash", "china", "cymbal", "shaker",
   "tamb", "tambo", "tambourine", "bongo", "conga", "timbale", "cowbell", "clave",
   "guiro", "agogo", "block"]

theorem rules_split :
    CATEGORY_RULES = CATEGORY_RULES.take 7 ++ breaksRule :: CATEGORY_RULES.drop 8 := by
  decide

theorem earlierKws_complete :
    ∀ r ∈ CATEGORY_RULES.take 7, ∀ kw ∈ r.1, kw ∈ earlierKws := by
  decide

/-! ### Lemmas about the hand-compiled regex engines -/

theorem digitAt_iff (cs : List Char) (i : Nat) :
    digitAt cs i = true ↔ ∃ c, cs.get? i = some c ∧ c.isDigit = true := by
  unfold digitAt
  cases hg : cs.get? i with
  | none => simp
  | some c => simp

theorem spaceAt_some (cs : List Char) (i : Nat) (h : spaceAt cs i = true) :
    ∃ c, cs.get? i = some c ∧ isSpaceC c = true := by
  unfold spaceAt at h
  cases hg : cs.get? i with
  | none => rw [hg] at h; cases h
  | some c => rw [hg] at h; exact ⟨c, rfl, h⟩

theorem litCI_head (cs : List Char) (i : Nat) (c : Char) (rest : List Char)
    (h : litCIAt cs i (c :: rest) = true) :
    ∃ d, cs.get? i = some d ∧ lowC d = c ∧ litCIAt cs (i + 1) rest = true := by
  unfold litCIAt at h
  rw [Bool.and_eq_true] at h
  obtain ⟨h1, h2⟩ := h
  unfold lcAt at h1
  cases hg : cs.get? i with
  | none => rw [hg] at h1; cases h1
  | some d =>
    rw [hg] at h1
    refine ⟨d, rfl, ?_, h2⟩
    simpa using h1

theorem isSpace_not_digit (c : Char) (h : isSpaceC c = true) : c.isDigit = false := by
  unfold isSpaceC at h
  simp only [Bool.or_eq_true, beq_iff_eq] at h
  rcases h with ((((rfl | rfl) | rfl) | rfl) | rfl) | rfl <;> decide

theorem lowC_b_not_digit (c : Char) (h : lowC c = 'b') : c.isDigit = false := by
  unfold lowC at h
  split at h <;> simp_all

theorem sliceN_cons_inv (cs : List Char) (i n : Nat) (a : Char) (rest : List Char)
    (h : sliceN cs i (n + 1) = a :: rest) :
    cs.get? i = some a ∧ sliceN cs (i + 1) n = rest := by
  unfold sliceN at h
  cases hg : cs.get? i with
  | none => rw [hg] at h; cases h
  | some c =>
    rw [hg] at h
    injection h with h1 h2
    subst h1
    exact ⟨rfl, h2⟩

/-- The hand-compiled `BPM_PAT` attempt at one position agrees exactly with
the declarative reading of the pattern at that position. -/
theorem tryBpm_iff_spec (cs : List Char) (i : Nat) (t : List Char) :
    tryBpmAt cs i = some t ↔ specBpmAt cs i t = true := by
  constructor
  · intro h
    unfold tryBpmAt at h
    by_cases hb : bnd cs i = true
    case neg => rw [if_neg hb] at h; cases h
    rw [if_pos hb] at h
    by_cases h3 :
        (digitAt cs i && digitAt cs (i + 1) && digitAt cs (i + 2) && bpmTailAt cs (i + 3)) = true
    · rw [if_pos h3] at h
      injection h with ht
      subst ht
      simp only [Bool.and_eq_true] at h3
      obtain ⟨⟨⟨hd0, hd1⟩, hd2⟩, htail⟩ := h3
      obtain ⟨c0, hg0, hc0⟩ := (digitAt_iff cs i).mp hd0
      obtain ⟨c1, hg1, hc1⟩ := (digitAt_iff cs (i + 1)).mp hd1
      obtain ⟨c2, hg2, hc2⟩ := (digitAt_iff cs (i + 2)).mp hd2
      have hg1' : cs.get? (i + 1) = some c1 := hg1
      have hg2' : cs.get? (i + 1 + 1) = some c2 := hg2
      have hs : sliceN cs i 3 = [c0, c1, c2] := by
        simp only [sliceN]
        rw [hg0, hg1', hg2']
      simp [specBpmAt, hs, hb, hc0, hc1, hc2, htail]
    · rw [if_neg h3] at h
      by_cases h2 : (digitAt cs i && digitAt cs (i + 1) && bpmTailAt cs (i + 2)) = true
      · rw [if_pos h2] at h
        injection h with ht
        subst ht
        simp only [Bool.and_eq_true] at h2
        obtain ⟨⟨hd0, hd1⟩, htail⟩ := h2
        obtain ⟨c0, hg0, hc0⟩ := (digitAt_iff cs i).mp hd0
        obtain ⟨c1, hg1, hc1⟩ := (digitAt_iff cs (i + 1)).mp hd1
        have hg1' : cs.get? (i + 1) = some c1 := hg1
        have hs : sliceN cs i 2 = [c0, c1] := by
          simp only [sliceN]
          rw [hg0, hg1']
        simp [specBpmAt, hs, hb, hc0, hc1, htail]
      · rw [if_neg h2] at h
        cases h
  · intro h
    unfold specBpmAt at h
    simp only [Bool.and_eq_true, Bool.or_eq_true, beq_iff_eq, List.all_eq_true] at h
    obtain ⟨⟨⟨⟨hb, hlen⟩, hall⟩, hsl⟩, htail⟩ := h
    rcases hlen with hlen | hlen
    · obtain ⟨a, b, ht⟩ := List.length_eq_two.mp hlen
      subst ht
      have hsl2 : sliceN cs i 2 = [a, b] := by simpa using hsl
      have h0 := sliceN_cons_inv cs i 1 a [b] hsl2
      have h1 := sliceN_cons_inv cs (i + 1) 0 b [] h0.2
      have hda : digitAt cs i = true := (digitAt_iff cs i).mpr ⟨a, h0.1, hall a (by simp)⟩
      have hdb : digitAt cs (i + 1) = true :=
        (digitAt_iff cs (i + 1)).mpr ⟨b, h1.1, hall b (by simp)⟩
      have htail2 : bpmTailAt cs (i + 2) = true := by simpa using htail
      have hnd : digitAt cs (i + 2) = false := by
        unfold bpmTailAt at htail2
        rw [Bool.or_eq_true] at htail2
        rcases htail2 with hsp | hlit
        · rw [Bool.and_eq_true] at hsp
          obtain ⟨c2, hg2, hs2⟩ := spaceAt_some cs (i + 2) hsp.1
          unfold digitAt
          rw [hg2]
          exact isSpace_not_digit c2 hs2
        · unfold bpmLitAt at hlit
          rw [Bool.and_eq_true] at hlit
          obtain ⟨d, hg2, hl2, _⟩ := litCI_head cs (i + 2) 'b' ['p', 'm'] hlit.1
          unfold digitAt
          rw [hg2]
          exact lowC_b_not_digit d hl2
      unfold tryBpmAt
      rw [if_pos hb]
      have hcond3 :
          ¬((digitAt cs i && digitAt cs (i + 1) && digitAt cs (i + 2) && bpmTailAt cs (i + 3)) =
            true) := by
        rw [hnd]
        simp
      rw [if_neg hcond3]
      rw [if_pos (by rw [hda, hdb, htail2]; rfl)]
      rw [hsl2]
    · obtain ⟨a, b, c, ht⟩ := List.length_eq_three.mp hlen
      subst ht
      have hsl2 : sliceN cs i 3 = [a, b, c] := by simpa using hsl
      have h0 := sliceN_cons_inv cs i 2 a [b, c] hsl2
      have h1 := sliceN_cons_inv cs (i + 1) 1 b [c] h0.2
      have h2 := sliceN_cons_inv cs (i + 2) 0 c [] h1.2
      have hda : digitAt cs i = true := (digitAt_iff cs i).mpr ⟨a, h0.1, hall a (by simp)⟩
      have hdb : digitAt cs (i + 1) = true :=
        (digitAt_iff cs (i + 1)).mpr ⟨b, h1.1, hall b (by simp)⟩
      have hdc : digitAt cs (i + 2) = true :=
        (digitAt_iff cs (i + 2)).mpr ⟨c, h2.1, hall c (by simp)⟩
      have htail2 : bpmTailAt cs (i + 3) = true := by simpa using htail
      unfold tryBpmAt
      rw [if_pos hb]
      rw [if_pos (by rw [hda, hdb, hdc, htail2]; rfl)]
      rw [hsl2]

theorem specBpm_oob (cs : List Char) (i : Nat) (t : List Char) (h : cs.length ≤ i) :
    specBpmAt cs i t = false := by
  have hg : cs.get? i = none := List.get?_eq_none.mpr h
  cases t with
  | nil => simp [specBpmAt]
  | cons a rest =>
    have hs : sliceN cs i (rest.length + 1) = [] := by
      unfold sliceN
      rw [hg]
    simp [specBpmAt, hs]

theorem scanFirst_some {α : Type} (f : Nat → Option α) (fuel i : Nat) (r : α)
    (h : scanFirst f fuel i = some r) :
    ∃ j, i ≤ j ∧ f j = some r ∧ ∀ k, i ≤ k → k < j → f k = none := by
  induction fuel generalizing i with
  | zero => simp [scanFirst] at h
  | succ n ih =>
    unfold scanFirst at h
    cases hf : f i with
    | some x =>
      rw [hf] at h
      injection h with hx
      subst hx
      exact ⟨i, Nat.le_refl i, hf,
        fun k hk1 hk2 => absurd (Nat.lt_of_le_of_lt hk1 hk2) (Nat.lt_irrefl i)⟩
    | none =>
      rw [hf] at h
      obtain ⟨j, hj1, hj2, hj3⟩ := ih (i + 1) h
      refine ⟨j, by omega, hj2, fun k hk1 hk2 => ?_⟩
      by_cases hk : k = i
      · subst hk
        exact hf
      · exact hj3 k (by omega) hk2

theorem scanFirst_none {α : Type} (f : Nat → Option α) (fuel i : Nat)
    (h : scanFirst f fuel i = none) :
    ∀ j, i ≤ j → j < i + fuel → f j = none := by
  induction fuel generalizing i with
  | zero =>
    intro j h1 h2
    omega
  | succ n ih =>
    unfold scanFirst at h
    cases hf : f i with
    | some x =>
      rw [hf] at h
      cases h
    | none =>
      rw [hf] at h
      intro j h1 h2
      by_cases hk : j = i
      · subst hk
        exact hf
      · exact ih (i + 1) h j (by omega) (by omega)

theorem findSome_mem {α β : Type} (f : α → Option β) (l : List α) (b : β)
    (h : l.findSome? f = some b) : ∃ a, a ∈ l ∧ f a = some b := by
  induction l with
  | nil => simp [List.findSome?_nil] at h
  | cons x xs ih =>
    rw [List.findSome?_cons] at h
    cases hf : f x with
    | some y =>
      rw [hf] at h
      exact ⟨x, by simp, hf.trans h⟩
    | none =>
      rw [hf] at h
      obtain ⟨a, ha, hfa⟩ := ih h
      exact ⟨a, by simp [ha], hfa⟩

theorem litCI_lower (cs : List Char) (tok : List Char) :
    ∀ i, litCIAt cs i tok = true → (sliceN cs i tok.length).map lowC = tok := by
  induction tok with
  | nil =>
    intro i _
    rfl
  | cons c rest ih =>
    intro i h
    obtain ⟨d, hg, hl, hrest⟩ := litCI_head cs i c rest h
    have hr := ih (i + 1) hrest
    show (sliceN cs i (rest.length + 1)).map lowC = c :: rest
    unfold sliceN
    rw [hg]
    simp [hl, hr]

theorem accCands_shape (cs : List Char) (i : Nat) (ac : List Char × Nat)
    (h : ac ∈ accCands cs i) :
    ac.1 = [] ∨ ac.1 = ['#'] ∨ ac.1 = ['b'] ∨ ac.1 = ['B'] := by
  unfold accCands at h
  rw [List.mem_append] at h
  rcases h with h | h
  · cases hg : cs.get? i with
    | none =>
      rw [hg] at h
      cases h
    | some c =>
      rw [hg] at h
      rw [List.mem_append] at h
      rcases h with h | h
      · by_cases hc : (c == '#') = true
        · rw [if_pos hc] at h
          simp only [List.mem_singleton] at h
          rw [h]
          right; left
          simpa using hc
        · rw [if_neg hc] at h
          cases h
      · by_cases hc : (c == 'b' || c == 'B') = true
        · rw [if_pos hc] at h
          simp only [List.mem_singleton] at h
          rw [h]
          simp only [Bool.or_eq_true, beq_iff_eq] at hc
          rcases hc with rfl | rfl
          · right; right; left; rfl
          · right; right; right; rfl
        · rw [if_neg hc] at h
          cases h
  · simp only [List.mem_singleton] at h
    rw [h]
    left
    rfl

theorem qualCands_shape (cs : List Char) (i : Nat) (qc : Option (List Char) × Nat)
    (h : qc ∈ qualCands cs i) :
    qc.1 = none ∨ ∃ tok, tok ∈ qualToks ∧ qc.1.map (List.map lowC) = some tok := by
  unfold qualCands at h
  rw [List.mem_append] at h
  rcases h with h | h
  · rw [List.mem_filterMap] at h
    obtain ⟨tok, htok, hf⟩ := h
    by_cases hlit : litCIAt cs i tok = true
    · rw [if_pos hlit] at hf
      injection hf with hf
      right
      refine ⟨tok, htok, ?_⟩
      rw [← hf]
      simp [litCI_lower cs tok i hlit]
    · rw [if_neg hlit] at hf
      cases hf
  · simp only [List.mem_singleton] at h
    rw [h]
    left
    rfl

theorem renderKey_shape (l : Char) (acc : List Char) (q : Option (List Char)) :
    renderKey (l :: acc) q =
      (upC l :: (if acc = ['#'] ∨ acc = ['b'] then acc else [])) ++
        (if minorQ q then ['m'] else []) := by
  have hrk : renderKey (l :: acc) q =
      (if minorQ q = true then
        (if (acc == ['#'] || acc == ['b']) = true then upC l :: acc else [upC l]) ++ ['m']
      else if (acc == ['#'] || acc == ['b']) = true then upC l :: acc else [upC l]) := rfl
  rw [hrk]
  by_cases ha : (acc == ['#'] || acc == ['b']) = true
  · have hp : acc = ['#'] ∨ acc = ['b'] := by simpa using ha
    by_cases hm : minorQ q = true
    · simp [ha, hp, hm]
    · simp [ha, hp, hm]
  · have hp : ¬(acc = ['#'] ∨ acc = ['b']) := by simpa using ha
    by_cases hm : minorQ q = true
    · simp [ha, hp, hm]
    · simp [ha, hp, hm]

theorem minorQ_iff (q : Option (List Char)) :
    minorQ q = true ↔
      q.map (List.map lowC) ∈
        [some ['m'], some ['m', 'i', 'n'], some ['m', 'i', 'n', 'o', 'r']] := by
  unfold minorQ
  cases q with
  | none => simp
  | some w => simp [or_assoc]

theorem findRule_cons_hit (r : List String × String) (rs : List (List String × String))
    (h : String) (hr : r.1.any (fun kw => strContains h kw) = true) :
    findRule (r :: rs) h = some r.2 := by
  unfold findRule
  rw [List.findSome?_cons]
  simp only [hr]
  rfl

/-! ### Concrete scenarios used by several claims -/

/-- A run of `n` letters `z` (no separators, fillers or vowels, so the stem
shortener leaves such a stem unchanged up to truncation). -/
def zName (n : Nat) : String := ⟨List.replicate n 'z'⟩

/-- A 134-character candidate file name, far beyond the 128-character budget. -/
def longName : String := zName 130 ++ ".wav"

/-- What `enforce_m8_limit` shortens `longName` to under `Unsorted` when no
sibling collides: the stem truncated to 115 characters plus the extension. -/
def shortName : String := zName 115 ++ ".wav"

/-- The name `enforce_m8_limit` produces for `longName` under `Unsorted` when
its first two candidates collide: the unchecked last-resort fallback. -/
def enfName : String := zName 110 ++ "~" ++ sha7 longName

/-- A destination state whose `Unsorted` directory already holds the three
names that force `enforce_m8_limit` into its unchecked fallback and then make
`safe_write`'s own uniqueness pass collide again. -/
def c5fs : FS :=
  ⟨[["Unsorted"]],
   [(["Unsorted"], shortName),
    (["Unsorted"], zName 111 ++ "~" ++ sha7 longName),
    (["Unsorted"], enfName)]⟩

/-! ### The claims -/

/-- C1: the claim says every candidate passed through `enforce_m8_limit` and
the uniqueness step ends with a relative path of at most 128 characters, the
non-positive-allowance edge case being served by the hash-suffix fallback.
The code violates this: with a parent whose relative path is already 128
characters long the allowance is `-1`, `suggested[:max_len]` slices from the
end of the name instead of producing the fallback, and the returned path has
relative length 133.  This contradicts the function's own docstring
("so that its relative path length <= 128"). -/
theorem c1_limit_violated :
    enforceName [String.mk (List.replicate 128 'D')] "x.wav" [] none = "x.wa" ∧
    maxRelPathChars <
      relLen [String.mk (List.replicate 128 'D')]
        (enforceName [String.mk (List.replicate 128 'D')] "x.wav" [] none) ∧
    maxRelPathChars <
      relLen [String.mk (List.replicate 128 'D')]
        (safeWriteName ⟨[[String.mk (List.replicate 128 'D')]], []⟩
          [String.mk (List.replicate 128 'D')] "x.wav" none) := by
  decide

/-- C2: the claim says no two placed files in one run receive an identical
final destination path.  The code violates this: `_unique`'s last-resort
fallback `(orig[:max(1, room-1)] + suffix)[:max_len]` is never re-checked
against the existing siblings, so the third of three identically named files
placed into the same category receives exactly the final name of the second
and overwrites it.  This contradicts the docstring of `safe_write` ("ensure
uniqueness without exceeding it"). -/
theorem c2_duplicate_final_paths :
    (runCopy ⟨[], []⟩
        [(["Unsorted"], "a.wav"), (["Unsorted"], "a.wav"), (["Unsorted"], "a.wav")]).2 =
      ["a.wav", "a.wav~" ++ sha7 "a.wav", "a.wav~" ++ sha7 "a.wav"] ∧
    ¬ (runCopy ⟨[], []⟩
        [(["Unsorted"], "a.wav"), (["Unsorted"], "a.wav"), (["Unsorted"], "a.wav")]).2.Nodup := by
  decide

/-- C3: the claim says a dry run reports exactly the destination paths a live
run would produce.  The code violates this: the dry-run branch prints
`out_path` before `enforce_m8_limit` and the uniqueness pass ever run, so for
a candidate whose relative path is 143 characters long the dry run reports
the unshortened path while the live run places the file at the shortened
one. -/
theorem c3_dry_run_divergence :
    dryRun [⟨longName, ["src"], none⟩] = [(["Unsorted"], longName)] ∧
    (liveRun ⟨[], []⟩ [⟨longName, ["src"], none⟩]).2 = [(["Unsorted"], shortName)] ∧
    longName ≠ shortName ∧
    maxRelPathChars < relLen ["Unsorted"] longName := by
  decide

/-- C4 (counterexample): the claim as stated says any haystack containing
"break" or "amen" is classified `Loops/Drums/Breaks`; but a haystack that
also contains a keyword of an earlier rule is classified by that rule. -/
theorem c4_counterexample :
    strContains (lowerS (joinS ' ' ["Kick Break.wav", "src"])) "break" = true ∧
    categorize "Kick Break.wav" ["src"] = "Drums/Kicks" ∧
    categorize "Kick Break.wav" ["src"] ≠ "Loops/Drums/Breaks" := by
  decide

/-- C4 (amended): for every haystack containing "break" or "amen", the
classifier never returns the generic `Loops/Misc` category; and when no
keyword of any earlier-listed rule (the drum one-shot rules) occurs in the
haystack, it returns `Loops/Drums/Breaks` — first-match-wins in rule order. -/
theorem c4_breaks_classification (h : String)
    (hb : strContains h "break" = true ∨ strContains h "amen" = true) :
    ((∀ kw ∈ earlierKws, strContains h kw = false) → catOfHay h = "Loops/Drums/Breaks") ∧
    catOfHay h ≠ "Loops/Misc" := by
  have hbreak : breaksRule.1.any (fun kw => strContains h kw) = true := by
    rcases hb with hb | hb
    · exact List.any_eq_true.mpr ⟨"break", by simp [breaksRule], hb⟩
    · exact List.any_eq_true.mpr ⟨"amen", by simp [breaksRule], hb⟩
  have hbfind : findRule (breaksRule :: CATEGORY_RULES.drop 8) h = some "Loops/Drums/Breaks" :=
    findRule_cons_hit breaksRule (CATEGORY_RULES.drop 8) h hbreak
  constructor
  · intro hpre
    have hnone : findRule (CATEGORY_RULES.take 7) h = none := by
      apply findRule_eq_none
      intro r hr
      rw [List.any_eq_false]
      intro kw hkw
      show ¬strContains h kw = true
      rw [hpre kw (earlierKws_complete r hr kw hkw)]
      simp
    have hfind : findRule CATEGORY_RULES h = some "Loops/Drums/Breaks" := by
      rw [rules_split, findRule_append, hnone]
      exact hbfind
    unfold catOfHay
    rw [hfind]
  · unfold catOfHay
    rw [rules_split, findRule_append]
    cases hf : findRule (CATEGORY_RULES.take 7) h with
    | some t =>
      show t ≠ "Loops/Misc"
      obtain ⟨r, hr, ht⟩ := findRule_mem _ _ _ hf
      subst ht
      exact (by decide : ∀ x ∈ CATEGORY_RULES.take 7, x.2 ≠ "Loops/Misc") r hr
    | none =>
      show (match findRule (breaksRule :: CATEGORY_RULES.drop 8) h with
            | some target => target
            | none => if strContains h "loop" = true then "Loops/Misc" else "Unsorted") ≠
          "Loops/Misc"
      rw [hbfind]
      show "Loops/Drums/Breaks" ≠ "Loops/Misc"
      decide

/-- C4 (witness): a concrete haystack containing both "amen" and "break" and
no earlier-rule keyword is classified as breaks and not as generic loops. -/
theorem c4_witness :
    catOfHay "amen break 172bpm.wav sounds" = "Loops/Drums/Breaks" ∧
    catOfHay "amen break 172bpm.wav sounds" ≠ "Loops/Misc" := by
  have h := c4_breaks_classification "amen break 172bpm.wav sounds" (Or.inr (by decide))
  exact ⟨h.1 (by decide), h.2⟩

/-- C5 (counterexample): the claim says the collision disambiguator appended
by the uniqueness step hashes the original, pre-shortening file name.  In
`safe_write` the second `_unique` call receives `dest.name` after
`enforce_m8_limit` has already rewritten it, so at this input the appended
disambiguator is the digest of the shortened name `enfName`, not of the
original `longName`. -/
theorem c5_counterexample :
    enforceName ["Unsorted"] longName (siblingsOf c5fs ["Unsorted"]) none = enfName ∧
    (siblingsOf c5fs ["Unsorted"]).contains (pyTake (maxNameLen ["Unsorted"]) enfName) = true ∧
    safeWriteName c5fs ["Unsorted"] longName none =
      (zName 110 ++ "~") ++ ("~" ++ sha7 enfName) ∧
    endsIn ("~" ++ sha7 enfName).data (safeWriteName c5fs ["Unsorted"] longName none).data =
      true ∧
    endsIn ("~" ++ sha7 longName).data (safeWriteName c5fs ["Unsorted"] longName none).data =
      false ∧
    enfName ≠ longName := by
  decide

/-- C5 (amended): on a collision with at least one character of room, the
uniqueness step of `safe_write` appends `"~"` plus a 7-character hex digest
of the name as already rewritten by `enforce_m8_limit` (which equals the
original name whenever enforcement left it unchanged); the digest is a
deterministic function of that name. -/
theorem c5_disambiguator_of_enforced_name (fs : FS) (segs : List String) (name : String)
    (hint : Option String) (hroom : 9 ≤ maxNameLen segs)
    (hc : (siblingsOf fs segs).contains
        (pyTake (maxNameLen segs) (enforceName segs name (siblingsOf fs segs) hint)) = true) :
    (sha7 (enforceName segs name (siblingsOf fs segs) hint)).length = 7 ∧
    ∃ p, safeWriteName fs segs name hint =
      p ++ ("~" ++ sha7 (enforceName segs name (siblingsOf fs segs) hint)) := by
  refine ⟨sha7_length _, ?_⟩
  have hsw : safeWriteName fs segs name hint =
      unique
        (pathStem (enforceName segs name (siblingsOf fs segs) hint) ++
          pathSuffix (enforceName segs name (siblingsOf fs segs) hint))
        (siblingsOf fs segs) (maxNameLen segs)
        (enforceName segs name (siblingsOf fs segs) hint) := rfl
  rw [hsw, stem_suffix_id]
  exact unique_collision_shape _ _ _ _ hroom hc

/-- C5 (witness): the amended statement applied at the concrete collision
scenario. -/
theorem c5_witness :
    (sha7 (enforceName ["Unsorted"] longName (siblingsOf c5fs ["Unsorted"]) none)).length = 7 ∧
    ∃ p, safeWriteName c5fs ["Unsorted"] longName none =
      p ++ ("~" ++ sha7 (enforceName ["Unsorted"] longName (siblingsOf c5fs ["Unsorted"]) none)) :=
  c5_disambiguator_of_enforced_name c5fs ["Unsorted"] longName none (by decide) (by decide)

/-- C6: whenever `KEY_PAT` matches a file name, the matched group is a letter
`A`-`G` (either case) with an optional accidental; the rendered tag starts
with that letter uppercased, keeps the accidental exactly when it is `#` or
`b`, and carries a trailing `m` exactly when the matched quality token
lowercases to `m`, `min` or `minor`; `maj`, `major` or an absent quality add
no suffix. -/
theorem c6_key_tag_normalization (s : String) (raw : List Char) (qual : Option (List Char))
    (h : keySearch s = some (raw, qual)) :
    ∃ l acc, raw = l :: acc ∧ letterC l = true ∧
      (acc = [] ∨ acc = ['#'] ∨ acc = ['b'] ∨ acc = ['B']) ∧
      (qual = none ∨ ∃ tok, tok ∈ qualToks ∧ qual.map (List.map lowC) = some tok) ∧
      renderKey raw qual =
        (upC l :: (if acc = ['#'] ∨ acc = ['b'] then acc else [])) ++
          (if minorQ qual then ['m'] else []) ∧
      (minorQ qual = true ↔
        qual.map (List.map lowC) ∈
          [some ['m'], some ['m', 'i', 'n'], some ['m', 'i', 'n', 'o', 'r']]) ∧
      ((qual = none ∨ qual.map (List.map lowC) = some ['m', 'a', 'j'] ∨
          qual.map (List.map lowC) = some ['m', 'a', 'j', 'o', 'r']) → minorQ qual = false) := by
  unfold keySearch at h
  obtain ⟨j, _, htry0, _⟩ := scanFirst_some _ _ _ _ h
  have htry : tryKeyAt s.data j = some (raw, qual) := htry0
  unfold tryKeyAt at htry
  cases hg : s.data.get? j with
  | none =>
    rw [hg] at htry
    cases htry
  | some c =>
    rw [hg] at htry
    have htry1 :
        (if (bnd s.data j && letterC c) = true then
          (accCands s.data (j + 1)).findSome? (fun ac =>
            (sepCands s.data ac.2).findSome? (fun j2 =>
              (qualCands s.data j2).findSome? (fun qc =>
                if bnd s.data qc.2 = true then some (c :: ac.1, qc.1) else none)))
        else none) = some (raw, qual) := htry
    by_cases hcond : (bnd s.data j && letterC c) = true
    case neg =>
      rw [if_neg hcond] at htry1
      cases htry1
    rw [if_pos hcond] at htry1
    obtain ⟨ac, hac, htry2⟩ := findSome_mem _ _ _ htry1
    obtain ⟨j2, _, htry3⟩ := findSome_mem _ _ _ htry2
    obtain ⟨qc, hqc, htry4⟩ := findSome_mem _ _ _ htry3
    by_cases hb2 : bnd s.data qc.2 = true
    case neg =>
      rw [if_neg hb2] at htry4
      cases htry4
    rw [if_pos hb2] at htry4
    injection htry4 with he
    injection he with he1 he2
    subst he1
    subst he2
    have hletter : letterC c = true := by
      have hcond2 := hcond
      rw [Bool.and_eq_true] at hcond2
      exact hcond2.2
    refine ⟨c, ac.1, rfl, hletter, accCands_shape _ _ _ hac,
      qualCands_shape _ _ _ hqc, renderKey_shape c ac.1 qc.1, minorQ_iff qc.1, ?_⟩
    intro hq
    cases hm : minorQ qc.1
    · rfl
    · exfalso
      have hmem := (minorQ_iff qc.1).mp hm
      rcases hq with hq | hq | hq
      · rw [hq] at hmem
        simp at hmem
      · rw [hq] at hmem
        simp at hmem
      · rw [hq] at hmem
        simp at hmem

/-- C6 (witness): on the name `Pad C#min 01.wav` the pattern matches `C#` with
quality `min` and the tag renders as `C#m`; the theorem applies there. -/
theorem c6_witness :
    keyExtract "Pad C#min 01.wav" = some "C#m" ∧
    (∃ l acc, (['C', '#'] : List Char) = l :: acc ∧ letterC l = true ∧
      (acc = [] ∨ acc = ['#'] ∨ acc = ['b'] ∨ acc = ['B']) ∧
      ((some ['m', 'i', 'n'] : Option (List Char)) = none ∨
        ∃ tok, tok ∈ qualToks ∧
          (some ['m', 'i', 'n'] : Option (List Char)).map (List.map lowC) = some tok) ∧
      renderKey ['C', '#'] (some ['m', 'i', 'n']) =
        (upC l :: (if acc = ['#'] ∨ acc = ['b'] then acc else [])) ++
          (if minorQ (some ['m', 'i', 'n']) then ['m'] else []) ∧
      (minorQ (some ['m', 'i', 'n']) = true ↔
        (some ['m', 'i', 'n'] : Option (List Char)).map (List.map lowC) ∈
          [some ['m'], some ['m', 'i', 'n'], some ['m', 'i', 'n', 'o', 'r']]) ∧
      (((some ['m', 'i', 'n'] : Option (List Char)) = none ∨
          (some ['m', 'i', 'n'] : Option (List Char)).map (List.map lowC) = some ['m', 'a', 'j'] ∨
          (some ['m', 'i', 'n'] : Option (List Char)).map (List.map lowC) =
            some ['m', 'a', 'j', 'o', 'r']) →
        minorQ (some ['m', 'i', 'n']) = false)) :=
  ⟨by decide,
   c6_key_tag_normalization "Pad C#min 01.wav" ['C', '#'] (some ['m', 'i', 'n']) (by decide)⟩

/-- C7: tempo extraction returns the captured digits of the leftmost position
at which `BPM_PAT` matches — a 2-3 digit number (delimited by the pattern's
word boundaries) immediately followed by optional whitespace and the literal
`bpm` case-insensitively — with no constraint on the numeric value, and
returns nothing exactly when no position matches. -/
theorem c7_tempo_extraction (s : String) :
    (∀ t, bpmExtract s = some t →
      ∃ i, specBpmAt s.data i t.data = true ∧
        ∀ j u, j < i → specBpmAt s.data j u = false) ∧
    (bpmExtract s = none → ∀ i t, specBpmAt s.data i t = false) := by
  constructor
  · intro t h
    unfold bpmExtract at h
    rw [Option.map_eq_some'] at h
    obtain ⟨p, hsc, hts⟩ := h
    obtain ⟨j, _, hj2, hj3⟩ := scanFirst_some _ _ _ _ hsc
    have hj2' : (tryBpmAt s.data j).map (fun tc => (j, tc)) = some p := hj2
    rw [Option.map_eq_some'] at hj2'
    obtain ⟨tc, htry, hptc⟩ := hj2'
    subst hptc
    subst hts
    refine ⟨j, ?_, ?_⟩
    · show specBpmAt s.data j tc = true
      exact (tryBpm_iff_spec _ _ _).mp htry
    · intro j2 u hlt
      have hnone : (fun i => (tryBpmAt s.data i).map fun tc => (i, tc)) j2 = none :=
        hj3 j2 (Nat.zero_le _) hlt
      have hnone' : (tryBpmAt s.data j2).map (fun tc => (j2, tc)) = none := hnone
      rw [Option.map_eq_none'] at hnone'
      cases hspec : specBpmAt s.data j2 u
      · rfl
      · exfalso
        have h4 := (tryBpm_iff_spec _ _ _).mpr hspec
        rw [hnone'] at h4
        cases h4
  · intro h i t
    unfold bpmExtract at h
    rw [Option.map_eq_none'] at h
    by_cases hi : i < s.data.length + 1
    · have hnone := scanFirst_none _ _ _ h i (Nat.zero_le _) (by omega)
      have hnone' : (tryBpmAt s.data i).map (fun tc => (i, tc)) = none := hnone
      rw [Option.map_eq_none'] at hnone'
      cases hspec : specBpmAt s.data i t
      · rfl
      · exfalso
        have h4 := (tryBpm_iff_spec _ _ _).mpr hspec
        rw [hnone'] at h4
        cases h4
    · exact specBpm_oob _ _ _ (by omega)

/-- C7 (witness): `999bpm` is extracted as `999` with no range validation,
and the theorem yields the leftmost-match property at that input. -/
theorem c7_witness :
    bpmExtract "snare 999bpm roll" = some "999" ∧
    (∃ i, specBpmAt "snare 999bpm roll".data i "999".data = true ∧
      ∀ j u, j < i → specBpmAt "snare 999bpm roll".data j u = false) :=
  ⟨by decide, (c7_tempo_extraction "snare 999bpm roll").1 "999" (by decide)⟩

/-- C8: the claim says `enforce_m8_limit` only ever rewrites the stem, never
the extension.  The code violates this: the collision suffix is appended
after the extension and the hash-fallback truncation can cut into it, so at
this input (a colliding sibling forces the suffix branch) the result has no
`.wav` extension at all, while the parent segments do pass through
unchanged. -/
theorem c8_extension_altered :
    enforceM8 ["Unsorted"] longName [shortName] none =
      (["Unsorted"], zName 111 ++ "~" ++ sha7 longName) ∧
    pathSuffix longName = ".wav" ∧
    pathSuffix (zName 111 ++ "~" ++ sha7 longName) = "" := by
  decide

/-- C9 (counterexample): the claim says an unknown placement mode fails with
no state change, in particular no directory creation.  The code creates the
destination directory (line 175) before the mode is examined, so the error
arrives only after that mutation. -/
theorem c9_counterexample :
    (safeWrite ⟨[], []⟩ ["Unsorted"] "a.wav" "hardlink" none).2 =
      Except.error "Unknown mode" ∧
    (safeWrite ⟨[], []⟩ ["Unsorted"] "a.wav" "hardlink" none).1.dirs = [["Unsorted"]] ∧
    (⟨[], []⟩ : FS).dirs = [] := by
  decide

/-- C9 (amended): a placement mode other than `move`, `copy` and `symlink`
makes `safe_write` fail with the `Unknown mode` error and place no file; the
only state change is the destination-directory creation, which has already
happened before the mode check. -/
theorem c9_unknown_mode_behavior (fs : FS) (segs : List String) (name : String)
    (hint : Option String) (mode : String)
    (h1 : mode ≠ "move") (h2 : mode ≠ "copy") (h3 : mode ≠ "symlink") :
    (safeWrite fs segs name mode hint).2 = Except.error "Unknown mode" ∧
    (safeWrite fs segs name mode hint).1.files = fs.files ∧
    (safeWrite fs segs name mode hint).1.dirs = (mkdirs fs segs).dirs := by
  have he : safeWrite fs segs name mode hint =
      (if (mode == "move" || mode == "copy" || mode == "symlink") = true then
        (placeFile (mkdirs fs segs) segs (safeWriteName (mkdirs fs segs) segs name hint),
          Except.ok (safeWriteName (mkdirs fs segs) segs name hint))
      else (mkdirs fs segs, Except.error "Unknown mode")) := rfl
  have hm : (mode == "move" || mode == "copy" || mode == "symlink") = false := by
    simp [h1, h2, h3]
  rw [he, hm]
  simp [mkdirs]

/-- C9 (witness): the amended statement at a concrete unknown mode. -/
theorem c9_witness :
    (safeWrite ⟨[["Unsorted"]], []⟩ ["Unsorted"] "kick 01.wav" "link" none).2 =
      Except.error "Unknown mode" ∧
    (safeWrite ⟨[["Unsorted"]], []⟩ ["Unsorted"] "kick 01.wav" "link" none).1.files =
      (⟨[["Unsorted"]], []⟩ : FS).files ∧
    (safeWrite ⟨[["Unsorted"]], []⟩ ["Unsorted"] "kick 01.wav" "link" none).1.dirs =
      (mkdirs ⟨[["Unsorted"]], []⟩ ["Unsorted"]).dirs :=
  c9_unknown_mode_behavior ⟨[["Unsorted"]], []⟩ ["Unsorted"] "kick 01.wav" none "link"
    (by decide) (by decide) (by decide)

/-- C10: classification reads every ancestor directory name of the absolute
path, including those above the source root: the same file at the same
relative location inside its pack is classified differently when the tree
sits under an ancestor directory whose name contains a rule keyword. -/
theorem c10_ancestor_sensitivity :
    categorize "tone.wav" ["PackX", "Sounds", "user", "home"] = "Unsorted" ∧
    categorize "tone.wav" ["PackX", "Sounds", "kick_collection", "home"] = "Drums/Kicks" ∧
    categorize "tone.wav" ["PackX", "Sounds", "user", "home"] ≠
      categorize "tone.wav" ["PackX", "Sounds", "kick_collection", "home"] := by
  decide

end SpliceOrg
